import Mathlib

/-!
# Verification of the Pulse file-transfer tool

Shallow embedding of the Pulse repository (Go):
* `internal/transfer/receiver.go` — `Receiver.ReceiveFile`, `Sender.Connect`,
  `Sender.SendFile`;
* `cmd/pulse/main.go` (relay) — `Room.AddClient`, `Room.RemoveClient`,
  `handleWebSocket`, `RoomManager.cleanupLoop`.

Bytes are modelled as `Nat`, byte sequences as `List Nat`.  The SHA-256
checksum function and the MIME-type table are external to the repository and
are treated as parameters (`H : List Nat → String`, `mimeOf : String → String`).
Encryption/decryption (package `internal/crypto`) only succeeds or fails from
the point of view of the code under verification, so its outcome is part of
the incoming event.  Wall-clock durations are modelled as a rational
parameter, and Go's `float64` division by a rational division.
-/

set_option autoImplicit false

namespace Pulse

/-! ## Go `path/filepath` (Unix rules)

`Receiver.ReceiveFile` computes `filepath.Join(destDir, metadata.Filename)`.
`Join` concatenates with `/` and applies `Clean`; these are faithful
translations of the Go standard library's lexical algorithm. -/

/-- Split a character sequence on a separator, keeping empty segments, like
Go `strings.Split` on a one-character separator. -/
def charsSplit (sep : Char) : List Char → List (List Char)
  | [] => [[]]
  | c :: cs =>
    let r := charsSplit sep cs
    if c = sep then [] :: r
    else
      match r with
      | [] => [[c]]
      | g :: gs => (c :: g) :: gs

/-- One step of Go `filepath.Clean`: push one path element onto the (reversed)
output stack.  `".."` pops a previous real element, is dropped at the root of
a rooted path, and is kept in a relative path. -/
def cleanPush (rooted : Bool) (acc : List String) (p : String) : List String :=
  if p = "" ∨ p = "." then acc
  else if p = ".." then
    match acc with
    | [] => if rooted then [] else [".."]
    | a :: rest => if a = ".." then ".." :: a :: rest else rest
  else p :: acc

/-- Join path elements with `/`. -/
def joinSlash : List String → String
  | [] => ""
  | [p] => p
  | p :: ps => p ++ "/" ++ joinSlash ps

/-- Go `filepath.Clean` for Unix paths. -/
def goClean (path : String) : String :=
  if path = "" then "."
  else
    let rooted := match path.data with | [] => false | c :: _ => c = '/'
    let parts := (charsSplit '/' path.data).map String.mk
    let out := (parts.foldl (cleanPush rooted) []).reverse
    let body := joinSlash out
    if rooted then (if body = "" then "/" else "/" ++ body)
    else (if body = "" then "." else body)

/-- Go `filepath.Join` restricted to two elements, as used in
`receiver.go:118`: join the non-empty elements with `/` and `Clean` the
result. -/
def goJoin (a b : String) : String :=
  if a = "" then (if b = "" then "" else goClean b)
  else if b = "" then goClean a
  else goClean (a ++ "/" ++ b)

/-- Is the first character sequence a prefix of the second? -/
def charsIsPrefix : List Char → List Char → Bool
  | [], _ => true
  | _ :: _, [] => false
  | a :: as, b :: bs => a = b && charsIsPrefix as bs

/-- `p` names a location inside directory `dir` (or `dir` itself). -/
def isWithinDir (dir p : String) : Bool :=
  decide (p = dir) || charsIsPrefix (dir ++ "/").data p.data

/-! ## On-disk state

The directory tree visible to the receiver, as an association list from path
to file content.  `diskSet` is `os.Create` (create or truncate), `diskAppend`
is `File.Write` on the open handle, `diskRemove` is `os.Remove` (removing a
missing path, e.g. `os.Remove("")`, is a no-op: the Go code ignores that
error). -/

abbrev Disk := List (String × List Nat)

def diskGet : Disk → String → Option (List Nat)
  | [], _ => none
  | (q, d) :: rest, p => if q = p then some d else diskGet rest p

def diskSet : Disk → String → List Nat → Disk
  | [], p, c => [(p, c)]
  | (q, d) :: rest, p, c => if q = p then (p, c) :: rest else (q, d) :: diskSet rest p c

def diskRemove : Disk → String → Disk
  | [], _ => []
  | (q, d) :: rest, p => if q = p then rest else (q, d) :: diskRemove rest p

def diskAppend (disk : Disk) (p : String) (c : List Nat) : Disk :=
  match diskGet disk p with
  | some d => diskSet disk p (d ++ c)
  | none => diskSet disk p c

/-! ## Protocol messages

Modelled from the spec: the message codec (`EncodeMessage` / `DecodeMessage` /
`ParseMetadata`, the `Metadata` struct and the `MsgType` tags) lives in a file
of the `transfer` package that is not under `src/`; the spec describes the
tagged union `Ready | Metadata | Chunk | Complete | Cancel | Error` and the
`Metadata` fields `{filename, size, chunk_count, checksum, mime_type,
batch_index, batch_total}`.  Sizes are non-negative in every modelled path, so
Go's `int64` is rendered as `Nat`. -/

structure Metadata where
  filename : String
  size : Nat
  chunks : Nat
  checksum : String
  mimeType : String
  batchIndex : Nat
  batchTotal : Nat
deriving DecidableEq, Repr

/-- The Go zero value `Metadata{}` of the receiver's
`var metadata Metadata` declaration. -/
def Metadata.zero : Metadata := ⟨"", 0, 0, "", "", 0, 0⟩

/-! ## Receiver state machine (`Receiver.ReceiveFile`, receiver.go:58-171)

Each iteration of the receive loop consumes one event: the cancellation
checkpoint at the top of the loop may fire, the read / decrypt / decode of the
incoming frame may fail, or a well-formed message arrives (with the possible
I/O failures of handling it — `ParseMetadata`, `os.Create`, `File.Write` —
attached to the event). -/

inductive RecvEvent where
  | cancelCtx
  | readError
  | decryptError
  | decodeError
  | msgReady
  | msgMetadata (md : Metadata)
  | msgMetadataParseFail
  | msgMetadataCreateFail (md : Metadata)
  | msgChunk (payload : List Nat)
  | msgChunkWriteFail (payload : List Nat)
  | msgComplete
  | msgCancel (reason : String)
  | msgError (reason : String)
deriving DecidableEq, Repr

inductive RecvErr where
  | cancelled
  | readFail
  | decryptFail
  | decodeFail
  | metadataParseFail
  | createFail
  | chunkBeforeMetadata
  | writeFail
  | checksumMismatch (expected got : String)
  | senderCancelled (reason : String)
  | senderError (reason : String)
deriving DecidableEq, Repr

/-- `transfer.Stats` (receiver side: `Duration`, `BytesSent`, `Speed`). -/
structure Stats where
  duration : ℚ
  bytesSent : Nat
  speed : ℚ
deriving DecidableEq, Repr

/-- The local variables of `ReceiveFile` together with the disk.
`fileOpen` is `file != nil`. -/
structure RecvState where
  metadata : Metadata
  fileOpen : Bool
  destPath : String
  fileContent : List Nat
  bytesReceived : Nat
  disk : Disk
deriving DecidableEq, Repr

inductive StepRes where
  | next (s : RecvState)
  | exitOk (path : String) (st : Stats) (disk : Disk)
  | exitErr (e : RecvErr) (disk : Disk)
deriving DecidableEq, Repr

/-- `if file != nil { os.Remove(destPath) }`. -/
def removeIfOpen (s : RecvState) : Disk :=
  if s.fileOpen then diskRemove s.disk s.destPath else s.disk

/-- One iteration of the `ReceiveFile` loop.  `H` is SHA-256
(`crypto.ComputeChecksum`), `dur` the elapsed `time.Since(startTime)` at a
successful return. -/
def recvStep (H : List Nat → String) (dur : ℚ) (destDir : String)
    (s : RecvState) : RecvEvent → StepRes
  | .cancelCtx => .exitErr .cancelled (removeIfOpen s)
  | .readError => .exitErr .readFail (removeIfOpen s)
  | .decryptError => .exitErr .decryptFail (removeIfOpen s)
  | .decodeError => .exitErr .decodeFail (removeIfOpen s)
  | .msgReady => .next s
  | .msgMetadata md =>
      let p := goJoin destDir md.filename
      .next { s with
        metadata := md
        destPath := p
        fileOpen := true
        disk := diskSet s.disk p []
        fileContent := [] }
  | .msgMetadataParseFail => .exitErr .metadataParseFail s.disk
  | .msgMetadataCreateFail _ => .exitErr .createFail s.disk
  | .msgChunk payload =>
      if s.fileOpen then
        .next { s with
          disk := diskAppend s.disk s.destPath payload
          fileContent := s.fileContent ++ payload
          bytesReceived := s.bytesReceived + payload.length }
      else .exitErr .chunkBeforeMetadata s.disk
  | .msgChunkWriteFail _ =>
      if s.fileOpen then .exitErr .writeFail (diskRemove s.disk s.destPath)
      else .exitErr .chunkBeforeMetadata s.disk
  | .msgComplete =>
      if s.metadata.checksum ≠ "" ∧ H s.fileContent ≠ s.metadata.checksum then
        .exitErr (.checksumMismatch s.metadata.checksum (H s.fileContent))
          (diskRemove s.disk s.destPath)
      else
        .exitOk s.destPath ⟨dur, s.bytesReceived, (s.bytesReceived : ℚ) / dur⟩ s.disk
  | .msgCancel reason => .exitErr (.senderCancelled reason) (diskRemove s.disk s.destPath)
  | .msgError reason => .exitErr (.senderError reason) (diskRemove s.disk s.destPath)

inductive RunRes where
  | pending (s : RecvState)
  | ok (path : String) (st : Stats) (disk : Disk)
  | err (e : RecvErr) (disk : Disk)
deriving DecidableEq, Repr

/-- Run the receive loop on a finite prefix of events.  The Go loop exits only
through a `return`; an exhausted event list leaves the loop `pending`. -/
def recvRun (H : List Nat → String) (dur : ℚ) (destDir : String) :
    RecvState → List RecvEvent → RunRes
  | s, [] => .pending s
  | s, e :: evs =>
    match recvStep H dur destDir s e with
    | .next t => recvRun H dur destDir t evs
    | .exitOk p st d => .ok p st d
    | .exitErr er d => .err er d

/-- Initial state of `ReceiveFile`: Go zero values, `file == nil`, empty
working directory. -/
def recvStart : RecvState := ⟨Metadata.zero, false, "", [], 0, []⟩

/-- Events of the receive loop that carry a `Metadata` message (whether its
parse or the file creation succeeds or not). -/
def isMetaEvent : RecvEvent → Bool
  | .msgMetadata _ => true
  | .msgMetadataParseFail => true
  | .msgMetadataCreateFail _ => true
  | _ => false

/-- Number of `Metadata` messages delivered by an event sequence. -/
def metaCount (evs : List RecvEvent) : Nat := (evs.filter isMetaEvent).length

theorem metaCount_cons (e : RecvEvent) (evs : List RecvEvent) :
    metaCount (e :: evs) = (if isMetaEvent e then 1 else 0) + metaCount evs := by
  simp only [metaCount, List.filter_cons]
  split <;> simp [Nat.add_comm]

theorem diskRemove_single (p : String) (c : List Nat) :
    diskRemove [(p, c)] p = [] := by
  simp [diskRemove]

theorem diskAppend_single (p : String) (c x : List Nat) :
    diskAppend [(p, c)] p x = [(p, c ++ x)] := by
  simp [diskAppend, diskGet, diskSet]

/-- Cleanliness of the receive loop under at most one `Metadata` message:
every error exit restores the empty disk, and a success exit leaves at most
the one destination file, whose content hashes to the declared checksum.
`Q` names the metadata already processed before the remaining events. -/
theorem recvRun_single_meta (H : List Nat → String) (dur : ℚ) (destDir : String) :
    ∀ (evs : List RecvEvent) (s : RecvState) (Q : Metadata → Prop),
    (s.fileOpen = true →
       s.disk = [(s.destPath, s.fileContent)] ∧ s.metadata.checksum ≠ "" ∧
       metaCount evs = 0 ∧
       ∃ md, Q md ∧ s.destPath = goJoin destDir md.filename ∧
         s.metadata.checksum = md.checksum) →
    (s.fileOpen = false → s.disk = [] ∧ s.destPath = "" ∧ s.metadata.checksum = "") →
    (∀ md, RecvEvent.msgMetadata md ∈ evs → md.checksum ≠ "") →
    metaCount evs ≤ 1 →
    (∀ e d, recvRun H dur destDir s evs = .err e d → d = []) ∧
    (∀ p st d, recvRun H dur destDir s evs = .ok p st d →
       (p = "" ∧ d = []) ∨
       ∃ md content, (Q md ∨ RecvEvent.msgMetadata md ∈ evs) ∧
          p = goJoin destDir md.filename ∧ d = [(p, content)] ∧
          H content = md.checksum ∧ md.checksum ≠ "") := by
  intro evs
  induction evs with
  | nil =>
    intro s Q _ _ _ _
    constructor
    · intro e d h; simp [recvRun] at h
    · intro p st d h; simp [recvRun] at h
  | cons e evs ih =>
    intro s Q hO hC hchk hcnt
    by_cases hopen : s.fileOpen = true
    · -- file already open: no further Metadata events are allowed
      obtain ⟨hdisk, hck, hmc, md, hQ, hdp, hmd⟩ := hO hopen
      have hme : isMetaEvent e = false := by
        cases h : isMetaEvent e
        · rfl
        · exfalso; rw [metaCount_cons, h] at hmc; simp at hmc
      have hmc2 : metaCount evs = 0 := by
        rw [metaCount_cons, hme] at hmc; simpa using hmc
      cases e with
      | cancelCtx =>
        refine ⟨fun e d h => ?_, fun p st d h => ?_⟩
        · simp [recvRun, recvStep, removeIfOpen, hopen, hdisk, diskRemove_single] at h
          exact h.2
        · simp [recvRun, recvStep, removeIfOpen, hopen, hdisk, diskRemove_single] at h
      | readError =>
        refine ⟨fun e d h => ?_, fun p st d h => ?_⟩
        · simp [recvRun, recvStep, removeIfOpen, hopen, hdisk, diskRemove_single] at h
          exact h.2
        · simp [recvRun, recvStep, removeIfOpen, hopen, hdisk, diskRemove_single] at h
      | decryptError =>
        refine ⟨fun e d h => ?_, fun p st d h => ?_⟩
        · simp [recvRun, recvStep, removeIfOpen, hopen, hdisk, diskRemove_single] at h
          exact h.2
        · simp [recvRun, recvStep, removeIfOpen, hopen, hdisk, diskRemove_single] at h
      | decodeError =>
        refine ⟨fun e d h => ?_, fun p st d h => ?_⟩
        · simp [recvRun, recvStep, removeIfOpen, hopen, hdisk, diskRemove_single] at h
          exact h.2
        · simp [recvRun, recvStep, removeIfOpen, hopen, hdisk, diskRemove_single] at h
      | msgReady =>
        have key := ih s Q (fun _ => ⟨hdisk, hck, hmc2, md, hQ, hdp, hmd⟩)
          (fun hcl => by rw [hopen] at hcl; exact absurd hcl (by decide))
          (fun m hm => hchk m (List.mem_cons_of_mem _ hm))
          (by omega)
        refine ⟨fun e d h => ?_, fun p st d h => ?_⟩
        · exact key.1 e d (by simpa [recvRun, recvStep] using h)
        · rcases key.2 p st d (by simpa [recvRun, recvStep] using h) with h1 | ⟨m, c, hm, rest⟩
          · exact Or.inl h1
          · exact Or.inr ⟨m, c, hm.imp id (List.mem_cons_of_mem _), rest⟩
      | msgMetadata md2 => exact absurd hme (by simp [isMetaEvent])
      | msgMetadataParseFail => exact absurd hme (by simp [isMetaEvent])
      | msgMetadataCreateFail md2 => exact absurd hme (by simp [isMetaEvent])
      | msgChunk payload =>
        have hstep : recvStep H dur destDir s (.msgChunk payload) =
            .next { s with
              disk := [(s.destPath, s.fileContent ++ payload)]
              fileContent := s.fileContent ++ payload
              bytesReceived := s.bytesReceived + payload.length } := by
          simp [recvStep, hopen, hdisk, diskAppend_single]
        have key := ih
          { s with
            disk := [(s.destPath, s.fileContent ++ payload)]
            fileContent := s.fileContent ++ payload
            bytesReceived := s.bytesReceived + payload.length } Q
          (fun _ => ⟨rfl, hck, hmc2, md, hQ, hdp, hmd⟩)
          (fun hcl => by rw [show ({ s with
            disk := [(s.destPath, s.fileContent ++ payload)]
            fileContent := s.fileContent ++ payload
            bytesReceived := s.bytesReceived + payload.length } : RecvState).fileOpen
              = s.fileOpen from rfl, hopen] at hcl; exact absurd hcl (by decide))
          (fun m hm => hchk m (List.mem_cons_of_mem _ hm))
          (by omega)
        refine ⟨fun e d h => ?_, fun p st d h => ?_⟩
        · refine key.1 e d ?_
          rw [recvRun, hstep] at h
          exact h
        · have h2 : recvRun H dur destDir
              { s with
                disk := [(s.destPath, s.fileContent ++ payload)]
                fileContent := s.fileContent ++ payload
                bytesReceived := s.bytesReceived + payload.length } evs = .ok p st d := by
            rw [recvRun, hstep] at h
            exact h
          rcases key.2 p st d h2 with h1 | ⟨m, c, hm, rest⟩
          · exact Or.inl h1
          · exact Or.inr ⟨m, c, hm.imp id (List.mem_cons_of_mem _), rest⟩
      | msgChunkWriteFail payload =>
        refine ⟨fun e d h => ?_, fun p st d h => ?_⟩
        · simp [recvRun, recvStep, hopen, hdisk, diskRemove_single] at h
          exact h.2
        · simp [recvRun, recvStep, hopen, hdisk, diskRemove_single] at h
      | msgComplete =>
        by_cases hmis : s.metadata.checksum ≠ "" ∧ H s.fileContent ≠ s.metadata.checksum
        · refine ⟨fun e d h => ?_, fun p st d h => ?_⟩
          · simp only [recvRun, recvStep, if_pos hmis, hdisk, diskRemove_single,
              RunRes.err.injEq] at h
            exact h.2.symm
          · simp only [recvRun, recvStep, if_pos hmis] at h
            exact RunRes.noConfusion h
        · have heq : H s.fileContent = s.metadata.checksum := by
            rcases not_and_or.mp hmis with h1 | h2
            · exact absurd hck (by simpa using h1)
            · simpa using h2
          refine ⟨fun e d h => ?_, fun p st d h => ?_⟩
          · simp only [recvRun, recvStep, if_neg hmis] at h
            exact RunRes.noConfusion h
          · simp only [recvRun, recvStep, if_neg hmis, RunRes.ok.injEq] at h
            refine Or.inr ⟨md, s.fileContent, Or.inl hQ, ?_, ?_, ?_, ?_⟩
            · rw [← h.1, hdp]
            · rw [← h.2.2, hdisk, h.1]
            · rw [heq, hmd]
            · rw [← hmd]; exact hck
      | msgCancel reason =>
        refine ⟨fun e d h => ?_, fun p st d h => ?_⟩
        · simp [recvRun, recvStep, hdisk, diskRemove_single] at h
          exact h.2
        · simp [recvRun, recvStep, hdisk, diskRemove_single] at h
      | msgError reason =>
        refine ⟨fun e d h => ?_, fun p st d h => ?_⟩
        · simp [recvRun, recvStep, hdisk, diskRemove_single] at h
          exact h.2
        · simp [recvRun, recvStep, hdisk, diskRemove_single] at h
    · -- file not yet open
      have hcl : s.fileOpen = false := by simpa using hopen
      obtain ⟨hdisk, hdp, hck⟩ := hC hcl
      cases e with
      | cancelCtx =>
        refine ⟨fun e d h => ?_, fun p st d h => ?_⟩
        · simp [recvRun, recvStep, removeIfOpen, hcl, hdisk] at h
          exact h.2
        · simp [recvRun, recvStep, removeIfOpen, hcl, hdisk] at h
      | readError =>
        refine ⟨fun e d h => ?_, fun p st d h => ?_⟩
        · simp [recvRun, recvStep, removeIfOpen, hcl, hdisk] at h
          exact h.2
        · simp [recvRun, recvStep, removeIfOpen, hcl, hdisk] at h
      | decryptError =>
        refine ⟨fun e d h => ?_, fun p st d h => ?_⟩
        · simp [recvRun, recvStep, removeIfOpen, hcl, hdisk] at h
          exact h.2
        · simp [recvRun, recvStep, removeIfOpen, hcl, hdisk] at h
      | decodeError =>
        refine ⟨fun e d h => ?_, fun p st d h => ?_⟩
        · simp [recvRun, recvStep, removeIfOpen, hcl, hdisk] at h
          exact h.2
        · simp [recvRun, recvStep, removeIfOpen, hcl, hdisk] at h
      | msgReady =>
        have key := ih s Q (fun ho => by rw [hcl] at ho; exact absurd ho (by decide))
          (fun _ => ⟨hdisk, hdp, hck⟩)
          (fun m hm => hchk m (List.mem_cons_of_mem _ hm))
          (by rw [metaCount_cons] at hcnt; omega)
        refine ⟨fun e d h => ?_, fun p st d h => ?_⟩
        · exact key.1 e d (by simpa [recvRun, recvStep] using h)
        · rcases key.2 p st d (by simpa [recvRun, recvStep] using h) with h1 | ⟨m, c, hm, rest⟩
          · exact Or.inl h1
          · exact Or.inr ⟨m, c, hm.imp id (List.mem_cons_of_mem _), rest⟩
      | msgMetadata md =>
        have hmc2 : metaCount evs = 0 := by
          rw [metaCount_cons] at hcnt
          simp only [isMetaEvent, if_true] at hcnt
          omega
        have hmd : md.checksum ≠ "" := hchk md (List.mem_cons_self _ _)
        have hstep : recvStep H dur destDir s (.msgMetadata md) =
            .next { s with
              metadata := md
              destPath := goJoin destDir md.filename
              fileOpen := true
              disk := diskSet s.disk (goJoin destDir md.filename) []
              fileContent := [] } := by
          simp [recvStep]
        have key := ih
          { s with
            metadata := md
            destPath := goJoin destDir md.filename
            fileOpen := true
            disk := diskSet s.disk (goJoin destDir md.filename) []
            fileContent := [] } (fun m => Q m ∨ m = md)
          (fun _ => ⟨by simp [hdisk, diskSet], hmd, hmc2, md, Or.inr rfl, rfl, rfl⟩)
          (fun hcl2 => by simp at hcl2)
          (fun m hm => hchk m (List.mem_cons_of_mem _ hm))
          (by omega)
        refine ⟨fun e d h => ?_, fun p st d h => ?_⟩
        · refine key.1 e d ?_
          rw [recvRun, hstep] at h
          exact h
        · have h2 : recvRun H dur destDir
              { s with
                metadata := md
                destPath := goJoin destDir md.filename
                fileOpen := true
                disk := diskSet s.disk (goJoin destDir md.filename) []
                fileContent := [] } evs = .ok p st d := by
            rw [recvRun, hstep] at h
            exact h
          rcases key.2 p st d h2 with h1 | ⟨m, c, hm, rest⟩
          · exact Or.inl h1
          · refine Or.inr ⟨m, c, ?_, rest⟩
            rcases hm with (hq | he) | hin
            · exact Or.inl hq
            · exact Or.inr (he ▸ List.mem_cons_self _ _)
            · exact Or.inr (List.mem_cons_of_mem _ hin)
      | msgMetadataParseFail =>
        refine ⟨fun e d h => ?_, fun p st d h => ?_⟩
        · simp [recvRun, recvStep, hdisk] at h
          exact h.2
        · simp [recvRun, recvStep] at h
      | msgMetadataCreateFail md =>
        refine ⟨fun e d h => ?_, fun p st d h => ?_⟩
        · simp [recvRun, recvStep, hdisk] at h
          exact h.2
        · simp [recvRun, recvStep] at h
      | msgChunk payload =>
        refine ⟨fun e d h => ?_, fun p st d h => ?_⟩
        · simp [recvRun, recvStep, hcl, hdisk] at h
          exact h.2
        · simp [recvRun, recvStep, hcl, hdisk] at h
      | msgChunkWriteFail payload =>
        refine ⟨fun e d h => ?_, fun p st d h => ?_⟩
        · simp [recvRun, recvStep, hcl, hdisk] at h
          exact h.2
        · simp [recvRun, recvStep, hcl, hdisk] at h
      | msgComplete =>
        have hmis : ¬ (s.metadata.checksum ≠ "" ∧ H s.fileContent ≠ s.metadata.checksum) := by
          rw [hck]; simp
        refine ⟨fun e d h => ?_, fun p st d h => ?_⟩
        · simp only [recvRun, recvStep, if_neg hmis] at h
          exact RunRes.noConfusion h
        · simp only [recvRun, recvStep, if_neg hmis, RunRes.ok.injEq] at h
          exact Or.inl ⟨by rw [← h.1, hdp], by rw [← h.2.2, hdisk]⟩
      | msgCancel reason =>
        refine ⟨fun e d h => ?_, fun p st d h => ?_⟩
        · simp [recvRun, recvStep, hdisk, diskRemove] at h
          exact h.2
        · simp [recvRun, recvStep, hdisk, diskRemove] at h
      | msgError reason =>
        refine ⟨fun e d h => ?_, fun p st d h => ?_⟩
        · simp [recvRun, recvStep, hdisk, diskRemove] at h
          exact h.2
        · simp [recvRun, recvStep, hdisk, diskRemove] at h

/-! ## Claims about the receiver -/

/-- C1 (counterexample): against the claim that no partially-written file is
ever left behind on any exit path, an incoming sequence with two `Metadata`
messages followed by a read error makes `ReceiveFile` return an error while
the first partially-written file (`d/a`, holding one byte) is still on
disk: the cleanup `os.Remove(destPath)` only removes the most recent
destination path. -/
theorem C1_counterexample :
    recvRun (fun _ => "x") 1 "d" recvStart
      [RecvEvent.msgMetadata ⟨"a", 10, 1, "ck", "", 0, 0⟩, RecvEvent.msgChunk [1],
       RecvEvent.msgMetadata ⟨"b", 10, 1, "ck", "", 0, 0⟩, RecvEvent.readError] =
      RunRes.err RecvErr.readFail [("d/a", [1])] ∧
    diskGet [("d/a", [1])] "d/a" = some [1] :=
  ⟨by decide, by decide⟩

/-- C1 (amended): provided the incoming sequence delivers at most one
`Metadata` message and every delivered `Metadata` declares a non-empty
checksum, every exit path of `ReceiveFile` leaves the destination directory
clean: an error exit leaves no file at all, and a success exit leaves either
no file (bare `Complete`, empty returned path) or exactly the one destination
file, whose content hashes to the declared checksum. -/
theorem C1_receiver_no_partial_file (H : List Nat → String) (dur : ℚ) (destDir : String)
    (evs : List RecvEvent)
    (h1 : metaCount evs ≤ 1)
    (h2 : ∀ md, RecvEvent.msgMetadata md ∈ evs → md.checksum ≠ "") :
    (∀ e d, recvRun H dur destDir recvStart evs = .err e d → d = []) ∧
    (∀ p st d, recvRun H dur destDir recvStart evs = .ok p st d →
       (p = "" ∧ d = []) ∨
       ∃ md content, RecvEvent.msgMetadata md ∈ evs ∧
          p = goJoin destDir md.filename ∧ d = [(p, content)] ∧
          H content = md.checksum ∧ md.checksum ≠ "") := by
  have key := recvRun_single_meta H dur destDir evs recvStart (fun _ => False)
    (fun ho => by simp [recvStart] at ho)
    (fun _ => ⟨rfl, rfl, rfl⟩)
    h2 h1
  refine ⟨key.1, fun p st d h => ?_⟩
  rcases key.2 p st d h with hl | ⟨m, c, hm, rest⟩
  · exact Or.inl hl
  · exact Or.inr ⟨m, c, hm.resolve_left id, rest⟩

/-- C1 (witness): the amended theorem applied to the one-event sequence
consisting of a failing read. -/
theorem C1_receiver_no_partial_file_witness :
    metaCount [RecvEvent.readError] ≤ 1 ∧
    (∀ e d, recvRun (fun _ => "x") 1 "d" recvStart [RecvEvent.readError] = RunRes.err e d →
      d = []) :=
  ⟨by decide, (C1_receiver_no_partial_file (fun _ => "x") 1 "d" [RecvEvent.readError]
    (by decide) (by intro md hmem; simp at hmem)).1⟩

/-- C6: on a `Complete` message, a declared non-empty checksum that differs
from the SHA-256 of the accumulated bytes makes the receiver delete the
partial file and fail with a checksum-mismatch error carrying both digests;
a matching digest, or no declared checksum, makes it return the saved path
with `Stats` whose speed is bytes divided by duration. -/
theorem C6_complete_checksum (H : List Nat → String) (dur : ℚ) (destDir : String)
    (s : RecvState) :
    (s.metadata.checksum ≠ "" → H s.fileContent ≠ s.metadata.checksum →
       recvRun H dur destDir s [RecvEvent.msgComplete] =
         RunRes.err (RecvErr.checksumMismatch s.metadata.checksum (H s.fileContent))
           (diskRemove s.disk s.destPath)) ∧
    (H s.fileContent = s.metadata.checksum →
       recvRun H dur destDir s [RecvEvent.msgComplete] =
         RunRes.ok s.destPath ⟨dur, s.bytesReceived, (s.bytesReceived : ℚ) / dur⟩ s.disk) ∧
    (s.metadata.checksum = "" →
       recvRun H dur destDir s [RecvEvent.msgComplete] =
         RunRes.ok s.destPath ⟨dur, s.bytesReceived, (s.bytesReceived : ℚ) / dur⟩ s.disk) := by
  refine ⟨fun hne hmis => ?_, fun heq => ?_, fun hnone => ?_⟩
  · simp [recvRun, recvStep, hne, hmis]
  · have hcond : ¬ (s.metadata.checksum ≠ "" ∧ H s.fileContent ≠ s.metadata.checksum) := by
      simp [heq]
    simp [recvRun, recvStep, hcond]
  · have hcond : ¬ (s.metadata.checksum ≠ "" ∧ H s.fileContent ≠ s.metadata.checksum) := by
      simp [hnone]
    simp [recvRun, recvStep, hcond]

/-- C6 (witness): a mismatching checksum on a concrete one-file state deletes
the file and reports both digests. -/
theorem C6_complete_checksum_witness :
    recvRun (fun _ => "bb") 1 "dd"
      ⟨⟨"f", 1, 1, "aa", "", 0, 0⟩, true, "dd/f", [7], 1, [("dd/f", [7])]⟩
      [RecvEvent.msgComplete] =
      RunRes.err (RecvErr.checksumMismatch "aa" "bb") [] := by
  have h := (C6_complete_checksum (fun _ => "bb") 1 "dd"
    ⟨⟨"f", 1, 1, "aa", "", 0, 0⟩, true, "dd/f", [7], 1, [("dd/f", [7])]⟩).1
    (by decide) (by decide)
  simpa [diskRemove] using h

/-- C9: a `Complete` decoded before any `Metadata` makes `ReceiveFile` return
success with an empty saved path, zero bytes and no checksum verification
(the zero-value metadata has an empty checksum), whereas a `Chunk` before
`Metadata` is an error. -/
theorem C9_complete_before_metadata (H : List Nat → String) (dur : ℚ) (destDir : String)
    (payload : List Nat) :
    recvRun H dur destDir recvStart [RecvEvent.msgComplete] =
      RunRes.ok "" ⟨dur, 0, 0⟩ [] ∧
    recvRun H dur destDir recvStart [RecvEvent.msgChunk payload] =
      RunRes.err RecvErr.chunkBeforeMetadata [] := by
  constructor
  · simp [recvRun, recvStep, recvStart, Metadata.zero]
  · simp [recvRun, recvStep, recvStart]

/-- C10: every `Metadata` message makes the receiver use exactly
`filepath.Join(destDir, metadata.Filename)` as destination path, with no
sanitization of the filename; a filename with `..` components therefore
escapes the destination directory, as the concrete run with filename
`../../secret` and destination `dst` shows: the file is created at
`../secret`, outside `dst`. -/
theorem C10_unsanitized_destination :
    (∀ (H : List Nat → String) (dur : ℚ) (destDir : String) (md : Metadata) (s : RecvState),
       recvStep H dur destDir s (RecvEvent.msgMetadata md) =
         StepRes.next { s with
           metadata := md
           destPath := goJoin destDir md.filename
           fileOpen := true
           disk := diskSet s.disk (goJoin destDir md.filename) []
           fileContent := [] }) ∧
    goJoin "dst" "../../secret" = "../secret" ∧
    isWithinDir "dst" (goJoin "dst" "../../secret") = false ∧
    recvRun (fun _ => "x") 1 "dst" recvStart
      [RecvEvent.msgMetadata ⟨"../../secret", 0, 0, "", "", 0, 0⟩, RecvEvent.msgComplete] =
      RunRes.ok "../secret" ⟨1, 0, 0⟩ [("../secret", [])] := by
  refine ⟨fun H dur destDir md s => rfl, by decide, by decide, ?_⟩
  have hj : goJoin "dst" "../../secret" = "../secret" := by decide
  simp [recvRun, recvStep, recvStart, hj, diskSet, Metadata.zero]

/-! ## Sender (receiver.go second part: `Sender.Connect`, `Sender.SendFile`)

`SendFile` reads the whole file first to compute the checksum, then streams
chunks of `config.ChunkSize` bytes.  `file.Read` on a regular file returns
`min(chunkSize, remaining)` bytes until EOF, so each loop iteration consumes
one `take`/`drop` of the chunk size.  The cancellation context is polled at
the top of each loop iteration: `cancel i` tells whether `ctx.Done()` has
fired when iteration `i` starts. -/

inductive SMsg where
  | metadata (md : Metadata)
  | chunk (payload : List Nat)
  | complete
  | cancelMsg (reason : String)
deriving DecidableEq, Repr

inductive SendOutcome where
  | done (bytesSent : Nat)
  | cancelled
  | outOfFuel
deriving DecidableEq, Repr

/-- Fuelled chunking of a byte sequence into slices of at most `cs` bytes.
One unit of fuel per loop iteration; `l.length` fuel is always enough when
`0 < cs`. -/
def chunksOfAux (cs : Nat) : Nat → List Nat → List (List Nat)
  | 0, _ => []
  | _ + 1, [] => []
  | fuel + 1, l => l.take cs :: chunksOfAux cs fuel (l.drop cs)

/-- The chunks of the file content, in file order. -/
def chunksOf (cs : Nat) (l : List Nat) : List (List Nat) := chunksOfAux cs l.length l

theorem chunksOfAux_nil (cs : Nat) : ∀ fuel, chunksOfAux cs fuel [] = [] := by
  intro fuel; cases fuel <;> rfl

theorem chunksOfAux_stable (cs : Nat) (hcs : 0 < cs) :
    ∀ fuel l, l.length ≤ fuel → chunksOfAux cs fuel l = chunksOf cs l := by
  intro fuel
  induction fuel using Nat.strong_induction_on with
  | _ fuel ih =>
    intro l hl
    cases l with
    | nil => rw [chunksOfAux_nil, chunksOf, List.length_nil, chunksOfAux_nil]
    | cons x xs =>
      cases fuel with
      | zero => simp at hl
      | succ f =>
        have hlen : (x :: xs).length = xs.length + 1 := rfl
        have hl2 : xs.length + 1 ≤ f + 1 := by rw [hlen] at hl; exact hl
        have hdrop : ((x :: xs).drop cs).length ≤ xs.length := by
          simp only [List.length_drop, hlen]; omega
        have h1 : chunksOfAux cs (f + 1) (x :: xs) =
            (x :: xs).take cs :: chunksOfAux cs f ((x :: xs).drop cs) := rfl
        have h2 : chunksOf cs (x :: xs) =
            (x :: xs).take cs :: chunksOfAux cs xs.length ((x :: xs).drop cs) := rfl
        rw [h1, h2, ih f (by omega) _ (le_trans hdrop (by omega)),
          ih xs.length (by omega) _ hdrop]

theorem chunksOf_cons (cs : Nat) (hcs : 0 < cs) (x : Nat) (xs : List Nat) :
    chunksOf cs (x :: xs) = (x :: xs).take cs :: chunksOf cs ((x :: xs).drop cs) := by
  have h2 : chunksOf cs (x :: xs) =
      (x :: xs).take cs :: chunksOfAux cs xs.length ((x :: xs).drop cs) := rfl
  rw [h2, chunksOfAux_stable cs hcs xs.length _ (by simp only [List.length_drop, List.length_cons]; omega)]

theorem chunksOf_join (cs : Nat) (hcs : 0 < cs) :
    ∀ n l, l.length ≤ n → (chunksOf cs l).flatten = l := by
  intro n
  induction n using Nat.strong_induction_on with
  | _ n ih =>
    intro l hl
    cases l with
    | nil => rfl
    | cons x xs =>
      cases n with
      | zero => simp at hl
      | succ m =>
        rw [chunksOf_cons cs hcs, List.flatten_cons,
          ih m (by omega) _ (by simp only [List.length_drop, List.length_cons]; simp at hl; omega)]
        exact List.take_append_drop cs (x :: xs)

theorem chunksOf_join_eq (cs : Nat) (hcs : 0 < cs) (l : List Nat) :
    (chunksOf cs l).flatten = l :=
  chunksOf_join cs hcs l.length l le_rfl

theorem chunksOf_length_le (cs : Nat) :
    ∀ fuel l c, c ∈ chunksOfAux cs fuel l → c.length ≤ cs := by
  intro fuel
  induction fuel with
  | zero => intro l c h; simp [chunksOfAux] at h
  | succ f ihf =>
    intro l c h
    cases l with
    | nil => rw [chunksOfAux_nil] at h; simp at h
    | cons x xs =>
      rw [show chunksOfAux cs (f + 1) (x :: xs) =
          (x :: xs).take cs :: chunksOfAux cs f ((x :: xs).drop cs) from rfl] at h
      rcases List.mem_cons.mp h with h1 | h2
      · rw [h1, List.length_take]; omega
      · exact ihf _ c h2

theorem chunksOf_count (cs : Nat) (hcs : 0 < cs) :
    ∀ n l, l.length ≤ n → (chunksOf cs l).length = (l.length + cs - 1) / cs := by
  intro n
  induction n using Nat.strong_induction_on with
  | _ n ih =>
    intro l hl
    cases l with
    | nil =>
      simp only [chunksOf, List.length_nil, chunksOfAux, Nat.zero_add]
      exact (Nat.div_eq_of_lt (by omega)).symm
    | cons x xs =>
      cases n with
      | zero => simp at hl
      | succ m =>
        have hdl : ((x :: xs).drop cs).length = xs.length + 1 - cs := by
          simp only [List.length_drop, List.length_cons]
        have ihd := ih m (by omega) ((x :: xs).drop cs)
          (by simp only [List.length_drop, List.length_cons]; simp at hl; omega)
        rw [chunksOf_cons cs hcs, List.length_cons, ihd, hdl, List.length_cons]
        rcases le_or_lt cs (xs.length + 1) with hle | hlt
        · have e1 : xs.length + 1 - cs + cs - 1 = xs.length := by omega
          have e2 : xs.length + 1 + cs - 1 = xs.length + cs := by omega
          rw [e1, e2, Nat.add_div_right _ hcs]
        · have e1 : xs.length + 1 - cs = 0 := by omega
          have h0 : (0 + cs - 1) / cs = 0 := by
            rw [Nat.zero_add]; exact Nat.div_eq_of_lt (by omega)
          rw [e1, h0]
          exact (Nat.div_eq_of_lt_le (by omega) (by omega)).symm

theorem chunksOf_count_eq (cs : Nat) (hcs : 0 < cs) (l : List Nat) :
    (chunksOf cs l).length = (l.length + cs - 1) / cs :=
  chunksOf_count cs hcs l.length l le_rfl

/-- The list of chunk sizes is determined by the content length alone. -/
def lenChunksAux (cs : Nat) : Nat → Nat → List Nat
  | 0, _ => []
  | _ + 1, 0 => []
  | fuel + 1, n => min cs n :: lenChunksAux cs fuel (n - cs)

theorem chunksOfAux_map_length (cs : Nat) :
    ∀ fuel l, (chunksOfAux cs fuel l).map List.length = lenChunksAux cs fuel l.length := by
  intro fuel
  induction fuel with
  | zero => intro l; rfl
  | succ f ihf =>
    intro l
    cases l with
    | nil => rw [chunksOfAux_nil]; rfl
    | cons x xs =>
      have h1 : chunksOfAux cs (f + 1) (x :: xs) =
          (x :: xs).take cs :: chunksOfAux cs f ((x :: xs).drop cs) := rfl
      have h2 : lenChunksAux cs (f + 1) (x :: xs).length =
          min cs (x :: xs).length :: lenChunksAux cs f ((x :: xs).length - cs) := rfl
      rw [h1, List.map_cons, ihf, h2, List.length_take, List.length_drop]

theorem chunksOf_replicate_150000 :
    (chunksOf 65536 (List.replicate 150000 0)).map List.length = [65536, 65536, 18928] := by
  rw [chunksOf, chunksOfAux_map_length, List.length_replicate]
  decide

/-- The metadata `SendFile` builds: size and chunk count from `file.Stat()`,
checksum from the full pre-read, MIME type from the extension with the
`application/octet-stream` default observed in the code. -/
def mkSendMetadata (H : List Nat → String) (mimeOf : String → String)
    (cs : Nat) (filename ext : String) (content : List Nat) : Metadata :=
  { filename := filename
    size := content.length
    chunks := (content.length + cs - 1) / cs
    checksum := H content
    mimeType := if mimeOf ext = "" then "application/octet-stream" else mimeOf ext
    batchIndex := 0
    batchTotal := 1 }

/-- The chunk-streaming loop of `SendFile` (receiver.go:348-382): poll the
cancellation context, read up to `cs` bytes, send the chunk; on EOF break and
send `Complete`; on a raised context send `Cancel` and return the context
error. -/
def sendLoopAux (cancel : Nat → Bool) (cs : Nat) :
    Nat → Nat → Nat → List Nat → List SMsg × SendOutcome
  | 0, _, _, _ => ([], .outOfFuel)
  | fuel + 1, iter, sent, rest =>
    if cancel iter then ([.cancelMsg "cancelled by sender"], .cancelled)
    else
      match rest with
      | [] => ([.complete], .done sent)
      | x :: xs =>
        let chunk := (x :: xs).take cs
        let r := sendLoopAux cancel cs fuel (iter + 1) (sent + chunk.length) ((x :: xs).drop cs)
        (.chunk chunk :: r.1, r.2)

/-- `Sender.SendFile`: the sequence of protocol messages it emits and its
outcome, for a file with the given content. -/
def sendFileRun (H : List Nat → String) (mimeOf : String → String) (cancel : Nat → Bool)
    (cs : Nat) (filename ext : String) (content : List Nat) : List SMsg × SendOutcome :=
  let md := mkSendMetadata H mimeOf cs filename ext content
  let r := sendLoopAux cancel cs (content.length + 1) 0 0 content
  (.metadata md :: r.1, r.2)

theorem sendLoopAux_no_cancel (cs : Nat) (hcs : 0 < cs) :
    ∀ fuel iter sent rest, rest.length < fuel →
      sendLoopAux (fun _ => false) cs fuel iter sent rest =
        ((chunksOf cs rest).map SMsg.chunk ++ [SMsg.complete], .done (sent + rest.length)) := by
  intro fuel
  induction fuel using Nat.strong_induction_on with
  | _ fuel ih =>
    intro iter sent rest hf
    cases fuel with
    | zero => omega
    | succ f =>
      cases rest with
      | nil => simp [sendLoopAux, chunksOf, chunksOfAux]
      | cons x xs =>
        have hstep : sendLoopAux (fun _ => false) cs (f + 1) iter sent (x :: xs) =
            (SMsg.chunk ((x :: xs).take cs) ::
              (sendLoopAux (fun _ => false) cs f (iter + 1)
                (sent + ((x :: xs).take cs).length) ((x :: xs).drop cs)).1,
             (sendLoopAux (fun _ => false) cs f (iter + 1)
                (sent + ((x :: xs).take cs).length) ((x :: xs).drop cs)).2) := rfl
        rw [hstep, ih f (by omega) (iter + 1) (sent + ((x :: xs).take cs).length)
          ((x :: xs).drop cs)
          (by simp only [List.length_drop, List.length_cons] at hf ⊢; omega),
          chunksOf_cons cs hcs]
        simp only [List.map_cons, List.cons_append, Prod.mk.injEq, SendOutcome.done.injEq,
          List.length_take, List.length_drop, List.length_cons]
        exact ⟨trivial, by omega⟩

/-- C4: for every file content and positive chunk size, `SendFile` emits
exactly one `Metadata` (size the file length, chunk count the ceiling of
size over chunk size, checksum of the full content), then the file's chunks
in order, then exactly one `Complete`; the chunks concatenate to the content
and each is at most the chunk size; a 150000-byte file at chunk size 65536
yields chunks of 65536, 65536 and 18928 bytes. -/
theorem C4_send_message_sequence (H : List Nat → String) (mimeOf : String → String)
    (cs : Nat) (filename ext : String) (content : List Nat) (hcs : 0 < cs) :
    sendFileRun H mimeOf (fun _ => false) cs filename ext content =
      (SMsg.metadata (mkSendMetadata H mimeOf cs filename ext content) ::
        ((chunksOf cs content).map SMsg.chunk ++ [SMsg.complete]),
       SendOutcome.done content.length) ∧
    (mkSendMetadata H mimeOf cs filename ext content).size = content.length ∧
    (mkSendMetadata H mimeOf cs filename ext content).chunks =
      (content.length + cs - 1) / cs ∧
    (mkSendMetadata H mimeOf cs filename ext content).checksum = H content ∧
    (chunksOf cs content).flatten = content ∧
    (∀ c ∈ chunksOf cs content, c.length ≤ cs) ∧
    (chunksOf cs content).length = (content.length + cs - 1) / cs ∧
    (chunksOf 65536 (List.replicate 150000 0)).map List.length = [65536, 65536, 18928] := by
  refine ⟨?_, rfl, rfl, rfl, chunksOf_join_eq cs hcs content,
    fun c hc => chunksOf_length_le cs content.length content c hc,
    chunksOf_count_eq cs hcs content, chunksOf_replicate_150000⟩
  have hrun := sendLoopAux_no_cancel cs hcs (content.length + 1) 0 0 content (by omega)
  simp only [sendFileRun, hrun, Nat.zero_add]

/-- C4 (witness): the theorem at chunk size 2 on the 3-byte file `[1, 2, 3]`. -/
theorem C4_send_message_sequence_witness :
    0 < 2 ∧
    sendFileRun (fun _ => "h") (fun _ => "") (fun _ => false) 2 "f" ".t" [1, 2, 3] =
      (SMsg.metadata (mkSendMetadata (fun _ => "h") (fun _ => "") 2 "f" ".t" [1, 2, 3]) ::
        ((chunksOf 2 [1, 2, 3]).map SMsg.chunk ++ [SMsg.complete]),
       SendOutcome.done 3) :=
  ⟨by decide, by
    have h := (C4_send_message_sequence (fun _ => "h") (fun _ => "") 2 "f" ".t" [1, 2, 3]
      (by decide)).1
    simpa using h⟩

theorem sendLoopAux_cancel_at (cs : Nat) (hcs : 0 < cs) :
    ∀ fuel k iter sent rest, rest.length < fuel → k ≤ (chunksOf cs rest).length →
      sendLoopAux (fun i => decide (iter + k ≤ i)) cs fuel iter sent rest =
        (((chunksOf cs rest).take k).map SMsg.chunk ++
          [SMsg.cancelMsg "cancelled by sender"], SendOutcome.cancelled) := by
  intro fuel
  induction fuel using Nat.strong_induction_on with
  | _ fuel ih =>
    intro k iter sent rest hf hk
    cases fuel with
    | zero => omega
    | succ f =>
      cases k with
      | zero => simp [sendLoopAux]
      | succ k2 =>
        have hc : decide (iter + (k2 + 1) ≤ iter) = false := by
          simp only [decide_eq_false_iff_not]; omega
        cases rest with
        | nil =>
          rw [show chunksOf cs ([] : List Nat) = [] from rfl] at hk
          simp at hk
        | cons x xs =>
          have hstep : sendLoopAux (fun i => decide (iter + (k2 + 1) ≤ i)) cs (f + 1)
              iter sent (x :: xs) =
              (SMsg.chunk ((x :: xs).take cs) ::
                (sendLoopAux (fun i => decide (iter + (k2 + 1) ≤ i)) cs f (iter + 1)
                  (sent + ((x :: xs).take cs).length) ((x :: xs).drop cs)).1,
               (sendLoopAux (fun i => decide (iter + (k2 + 1) ≤ i)) cs f (iter + 1)
                  (sent + ((x :: xs).take cs).length) ((x :: xs).drop cs)).2) := by
            simp only [sendLoopAux, hc, Bool.false_eq_true, if_false]
          have hfun : (fun i => decide (iter + (k2 + 1) ≤ i)) =
              (fun i => decide ((iter + 1) + k2 ≤ i)) := by
            funext i
            rw [show iter + (k2 + 1) = (iter + 1) + k2 from by omega]
          have hk2 : k2 ≤ (chunksOf cs ((x :: xs).drop cs)).length := by
            rw [chunksOf_cons cs hcs] at hk
            simpa using Nat.lt_succ_iff.mp (Nat.lt_of_lt_of_le (Nat.lt_succ_self _) hk)
          rw [hstep, hfun, ih f (by omega) k2 (iter + 1)
            (sent + ((x :: xs).take cs).length) ((x :: xs).drop cs)
            (by simp only [List.length_drop, List.length_cons] at hf ⊢; omega) hk2,
            chunksOf_cons cs hcs]
          simp only [List.take_succ_cons, List.map_cons, List.cons_append]

/-- C8: if the cancellation context fires first at checkpoint `k` (the check
at the top of the chunk loop, before the `k`-th chunk read), `SendFile` has
sent the metadata and the first `k` chunks, then sends one `Cancel` message
with the human-readable reason `cancelled by sender` and returns the
cancellation outcome without sending any further chunk or a `Complete`. -/
theorem C8_cancellation_checkpoint (H : List Nat → String) (mimeOf : String → String)
    (cs : Nat) (filename ext : String) (content : List Nat) (k : Nat)
    (hcs : 0 < cs) (hk : k ≤ (chunksOf cs content).length) :
    sendFileRun H mimeOf (fun i => decide (k ≤ i)) cs filename ext content =
      (SMsg.metadata (mkSendMetadata H mimeOf cs filename ext content) ::
        (((chunksOf cs content).take k).map SMsg.chunk ++
          [SMsg.cancelMsg "cancelled by sender"]),
       SendOutcome.cancelled) := by
  have hfun : (fun i => decide (k ≤ i)) = (fun i => decide (0 + k ≤ i)) := by
    funext i; rw [Nat.zero_add]
  have h := sendLoopAux_cancel_at cs hcs (content.length + 1) k 0 0 content (by omega) hk
  simp only [sendFileRun, hfun, h]

/-- C8 (witness): cancellation after one of the two chunks of `[1, 2, 3]` at
chunk size 2. -/
theorem C8_cancellation_checkpoint_witness :
    (0 < 2 ∧ 1 ≤ (chunksOf 2 [1, 2, 3]).length) ∧
    sendFileRun (fun _ => "h") (fun _ => "") (fun i => decide (1 ≤ i)) 2 "f" ".t" [1, 2, 3] =
      (SMsg.metadata (mkSendMetadata (fun _ => "h") (fun _ => "") 2 "f" ".t" [1, 2, 3]) ::
        (((chunksOf 2 [1, 2, 3]).take 1).map SMsg.chunk ++
          [SMsg.cancelMsg "cancelled by sender"]),
       SendOutcome.cancelled) :=
  ⟨⟨by decide, by decide⟩,
   C8_cancellation_checkpoint (fun _ => "h") (fun _ => "") 2 "f" ".t" [1, 2, 3] 1
     (by decide) (by decide)⟩

/-! ## `Sender.Connect` (receiver.go:236-255)

The loop `for attempt := 0; attempt < retries; attempt++` dials once per
attempt; on failure it sleeps `(attempt+1) * 2` seconds, but only when
`attempt < retries-1`.  The trace records the number of dial attempts, the
successive sleep durations in seconds, and the result. -/

inductive ConnResult where
  | ok (conn : Nat)
  | connError (attempts : Nat) (lastErr : String)
deriving DecidableEq, Repr

structure ConnectTrace where
  attempts : Nat
  backoffs : List Nat
  result : ConnResult
deriving DecidableEq, Repr

def connectLoopAux (dial : Nat → Except String Nat) (retries : Nat) :
    Nat → String → List Nat → Nat → ConnectTrace
  | 0, lastErr, backoffs, attempts => ⟨attempts, backoffs, .connError retries lastErr⟩
  | remaining + 1, _lastErr, backoffs, attempts =>
    let attempt := retries - (remaining + 1)
    match dial attempt with
    | .ok c => ⟨attempts + 1, backoffs, .ok c⟩
    | .error e =>
      if remaining > 0 then
        connectLoopAux dial retries remaining e (backoffs ++ [(attempt + 1) * 2]) (attempts + 1)
      else
        connectLoopAux dial retries remaining e backoffs (attempts + 1)

/-- `Sender.Connect` with `dial attempt` the outcome of the websocket dial on
the given attempt. -/
def connect (dial : Nat → Except String Nat) (retries : Nat) : ConnectTrace :=
  connectLoopAux dial retries retries "" [] 0

/-- C5 (counterexample): with retries=3 and an always-failing dial, the
sleeps between attempts are 2s and 4s only — there are just two gaps between
three attempts, so the claimed backoff sequence 2s, 4s, 6s never occurs (no
sleep follows the final attempt). -/
theorem C5_counterexample :
    connect (fun _ => Except.error "dial failed") 3 =
      ⟨3, [2, 4], ConnResult.connError 3 "dial failed"⟩ ∧
    [2, 4] ≠ [2, 4, 6] :=
  ⟨by decide, by decide⟩

/-- C5 (amended): with retries=3 and an always-failing dial, `Connect` dials
exactly 3 times, sleeps `(attempt_index+1) * 2` seconds between consecutive
attempts — the strictly increasing sequence 2s, 4s, with no sleep after the
final attempt — and returns a connection error wrapping the attempt count
and the last underlying failure. -/
theorem C5_retry_backoff (e : Nat → String) :
    connect (fun i => Except.error (e i)) 3 =
      ⟨3, [2, 4], ConnResult.connError 3 (e 2)⟩ ∧
    2 < 4 :=
  ⟨rfl, by decide⟩

/-! ## Relay (cmd/pulse/main.go)

Connections are identified by numbers.  The session table (`RoomManager`) is
an association list from token to `Room`; Go's map with unique keys.  The
handler's pointer to its room is modelled by lookups under the token.  Times
are in seconds. -/

abbrev Conn := Nat

structure Room where
  token : String
  clients : List Conn
  createdAt : Nat
deriving DecidableEq, Repr

structure RoomManager where
  rooms : List (String × Room)
deriving DecidableEq, Repr

def findRoom : List (String × Room) → String → Option Room
  | [], _ => none
  | (t, r) :: rest, token => if t = token then some r else findRoom rest token

def setRoom : List (String × Room) → String → Room → List (String × Room)
  | [], _, _ => []
  | (t, r) :: rest, token, r2 =>
    if t = token then (t, r2) :: rest else (t, r) :: setRoom rest token r2

def deleteRoomList : List (String × Room) → String → List (String × Room)
  | [], _ => []
  | (t, r) :: rest, token => if t = token then rest else (t, r) :: deleteRoomList rest token

/-- `RoomManager.DeleteRoom`. -/
def DeleteRoom (rm : RoomManager) (token : String) : RoomManager :=
  ⟨deleteRoomList rm.rooms token⟩

/-- `Room.AddClient` (main.go:388-396): reject when two clients are already
present, append otherwise. -/
def AddClient (room : Room) (c : Conn) : Bool × Room :=
  if 2 ≤ room.clients.length then (false, room)
  else (true, { room with clients := room.clients ++ [c] })

/-- `Room.RemoveClient` (main.go:398-407): remove the first matching
connection. -/
def RemoveClientList : List Conn → Conn → List Conn
  | [], _ => []
  | x :: xs, c => if x = c then xs else x :: RemoveClientList xs c

def RemoveClient (room : Room) (c : Conn) : Room :=
  { room with clients := RemoveClientList room.clients c }

/-- `RoomManager.GetOrCreateRoom` (main.go:353-362). -/
def GetOrCreateRoom (rm : RoomManager) (token : String) (now : Nat) : RoomManager :=
  match findRoom rm.rooms token with
  | some _ => rm
  | none => ⟨(token, ⟨token, [], now⟩) :: rm.rooms⟩

inductive JoinResult where
  | accepted
  | rejectedRoomFull
deriving DecidableEq, Repr

/-- The join phase of `handleWebSocket` (main.go:434-438): get or create the
room, try `AddClient`; on failure the connection is closed with
`ClosePolicyViolation` (`room full`) and the handler returns without
registering the deferred `RemoveClient`.  The `none` branch is unreachable:
the room was just created. -/
def wsJoin (rm : RoomManager) (token : String) (c : Conn) (now : Nat) :
    JoinResult × RoomManager :=
  let rm1 := GetOrCreateRoom rm token now
  match findRoom rm1.rooms token with
  | some room =>
    let ar := AddClient room c
    if ar.1 then (.accepted, ⟨setRoom rm1.rooms token ar.2⟩)
    else (.rejectedRoomFull, rm1)
  | none => (.rejectedRoomFull, rm1)

/-- The disconnect phase of `handleWebSocket` after its read loop ends, in
source order (main.go:439 and 453-458): first the emptiness check and the
conditional `DeleteRoom`, and only then the deferred `room.RemoveClient(conn)`
runs, visible in the table when the room is still there. -/
def wsDisconnectCheck (rm : RoomManager) (token : String) : RoomManager :=
  match findRoom rm.rooms token with
  | some room => if room.clients.length = 0 then DeleteRoom rm token else rm
  | none => rm

def wsDisconnect (rm : RoomManager) (token : String) (c : Conn) : RoomManager :=
  match findRoom (wsDisconnectCheck rm token).rooms token with
  | some room => ⟨setRoom (wsDisconnectCheck rm token).rooms token (RemoveClient room c)⟩
  | none => wsDisconnectCheck rm token

/-- One tick of `RoomManager.cleanupLoop` (main.go:370-386): close the
connections of, and delete, every room older than 10 minutes. -/
def sweep (rm : RoomManager) (now : Nat) : RoomManager × List Conn :=
  (⟨rm.rooms.filter (fun tr => ! decide (tr.2.createdAt + 600 < now))⟩,
   ((rm.rooms.filter (fun tr => decide (tr.2.createdAt + 600 < now))).map
      (fun tr => tr.2.clients)).flatten)

/-- The schedule of `time.NewTicker(1 * time.Minute)` started at `t0`: tick
`k` fires at `t0 + 60 * (k + 1)` seconds. -/
def tickTime (t0 k : Nat) : Nat := t0 + 60 * (k + 1)

inductive RelayEvent where
  | join (token : String) (c : Conn) (now : Nat)
  | leave (token : String) (c : Conn)
  | tick (now : Nat)
deriving DecidableEq, Repr

def relayStep (rm : RoomManager) : RelayEvent → RoomManager
  | .join token c now => (wsJoin rm token c now).2
  | .leave token c => wsDisconnect rm token c
  | .tick now => (sweep rm now).1

/-- The relay's observable table after a sequence of joins, disconnects and
sweep ticks. -/
def relayRun : RoomManager → List RelayEvent → RoomManager
  | rm, [] => rm
  | rm, e :: evs => relayRun (relayStep rm e) evs

/-- Number of participants currently in the session of a token. -/
def roomCount (rm : RoomManager) (token : String) : Nat :=
  match findRoom rm.rooms token with
  | some room => room.clients.length
  | none => 0

theorem findRoom_mem : ∀ (l : List (String × Room)) token room,
    findRoom l token = some room → (token, room) ∈ l := by
  intro l
  induction l with
  | nil => intro token room h; simp [findRoom] at h
  | cons p rest ih =>
    intro token room h
    obtain ⟨pt, pr⟩ := p
    simp only [findRoom] at h
    by_cases hpt : pt = token
    · rw [if_pos hpt] at h
      have : pr = room := by injection h
      rw [← this, ← hpt]
      exact List.mem_cons_self _ _
    · rw [if_neg hpt] at h
      exact List.mem_cons_of_mem _ (ih token room h)

theorem mem_setRoom : ∀ (l : List (String × Room)) token r2 t r,
    (t, r) ∈ setRoom l token r2 → (t, r) ∈ l ∨ r = r2 := by
  intro l
  induction l with
  | nil => intro token r2 t r h; simp [setRoom] at h
  | cons p rest ih =>
    intro token r2 t r h
    obtain ⟨pt, pr⟩ := p
    simp only [setRoom] at h
    by_cases hpt : pt = token
    · rw [if_pos hpt] at h
      rcases List.mem_cons.mp h with h1 | h2
      · right
        rw [Prod.mk.injEq] at h1
        exact h1.2
      · exact Or.inl (List.mem_cons_of_mem _ h2)
    · rw [if_neg hpt] at h
      rcases List.mem_cons.mp h with h1 | h2
      · exact Or.inl (h1 ▸ List.mem_cons_self _ _)
      · rcases ih token r2 t r h2 with ha | hb
        · exact Or.inl (List.mem_cons_of_mem _ ha)
        · exact Or.inr hb

theorem mem_deleteRoomList : ∀ (l : List (String × Room)) token t r,
    (t, r) ∈ deleteRoomList l token → (t, r) ∈ l := by
  intro l
  induction l with
  | nil => intro token t r h; simp [deleteRoomList] at h
  | cons p rest ih =>
    intro token t r h
    obtain ⟨pt, pr⟩ := p
    simp only [deleteRoomList] at h
    by_cases hpt : pt = token
    · rw [if_pos hpt] at h
      exact List.mem_cons_of_mem _ h
    · rw [if_neg hpt] at h
      rcases List.mem_cons.mp h with h1 | h2
      · exact h1 ▸ List.mem_cons_self _ _
      · exact List.mem_cons_of_mem _ (ih token t r h2)

theorem RemoveClientList_length_le : ∀ (l : List Conn) c,
    (RemoveClientList l c).length ≤ l.length := by
  intro l
  induction l with
  | nil => intro c; simp [RemoveClientList]
  | cons x xs ih =>
    intro c
    simp only [RemoveClientList]
    by_cases hx : x = c
    · rw [if_pos hx]; simp
    · rw [if_neg hx]
      simp only [List.length_cons]
      exact Nat.succ_le_succ (ih c)

/-- Every room of a reachable table holds at most two clients. -/
def capInv (rm : RoomManager) : Prop :=
  ∀ token room, (token, room) ∈ rm.rooms → room.clients.length ≤ 2

theorem capInv_GetOrCreateRoom (rm : RoomManager) (token : String) (now : Nat)
    (h : capInv rm) : capInv (GetOrCreateRoom rm token now) := by
  intro t r hmem
  unfold GetOrCreateRoom at hmem
  cases hf : findRoom rm.rooms token with
  | some room =>
    rw [hf] at hmem
    exact h t r hmem
  | none =>
    rw [hf] at hmem
    rcases List.mem_cons.mp hmem with h1 | h2
    · have h1b : r = ⟨token, [], now⟩ := congrArg Prod.snd h1
      rw [h1b]
      simp
    · exact h t r h2

theorem capInv_wsJoin (rm : RoomManager) (token : String) (c : Conn) (now : Nat)
    (h : capInv rm) : capInv (wsJoin rm token c now).2 := by
  have h1 : capInv (GetOrCreateRoom rm token now) := capInv_GetOrCreateRoom rm token now h
  cases hf : findRoom (GetOrCreateRoom rm token now).rooms token with
  | none =>
    have he : (wsJoin rm token c now).2 = GetOrCreateRoom rm token now := by
      simp [wsJoin, hf]
    rw [he]; exact h1
  | some room =>
    by_cases hlen : 2 ≤ room.clients.length
    · have he : (wsJoin rm token c now).2 = GetOrCreateRoom rm token now := by
        simp [wsJoin, hf, AddClient, hlen]
      rw [he]; exact h1
    · have he : (wsJoin rm token c now).2 =
          ⟨setRoom (GetOrCreateRoom rm token now).rooms token
            { room with clients := room.clients ++ [c] }⟩ := by
        simp [wsJoin, hf, AddClient, hlen]
      rw [he]
      intro t r hmem
      rcases mem_setRoom _ token _ t r hmem with ha | hb
      · exact h1 t r ha
      · rw [hb]
        show (room.clients ++ [c]).length ≤ 2
        rw [List.length_append]
        simp only [List.length_singleton]
        omega

theorem capInv_wsDisconnectCheck (rm : RoomManager) (token : String)
    (h : capInv rm) : capInv (wsDisconnectCheck rm token) := by
  unfold wsDisconnectCheck
  cases hf : findRoom rm.rooms token with
  | none => exact h
  | some room =>
    show capInv (if room.clients.length = 0 then DeleteRoom rm token else rm)
    by_cases hz : room.clients.length = 0
    · rw [if_pos hz]
      intro t r hmem
      exact h t r (mem_deleteRoomList _ token t r hmem)
    · rw [if_neg hz]
      exact h

theorem capInv_wsDisconnect (rm : RoomManager) (token : String) (c : Conn)
    (h : capInv rm) : capInv (wsDisconnect rm token c) := by
  have h1 := capInv_wsDisconnectCheck rm token h
  unfold wsDisconnect
  cases hf2 : findRoom (wsDisconnectCheck rm token).rooms token with
  | none => exact h1
  | some room =>
    intro t r hmem
    rcases mem_setRoom _ token _ t r hmem with ha | hb
    · exact h1 t r ha
    · rw [hb]
      have hr : room.clients.length ≤ 2 := h1 token room (findRoom_mem _ token room hf2)
      calc (RemoveClient room c).clients.length
          ≤ room.clients.length := RemoveClientList_length_le room.clients c
        _ ≤ 2 := hr

theorem capInv_sweep (rm : RoomManager) (now : Nat)
    (h : capInv rm) : capInv (sweep rm now).1 := by
  intro t r hmem
  exact h t r (List.mem_filter.mp hmem).1

theorem capInv_relayRun : ∀ (evs : List RelayEvent) (rm : RoomManager),
    capInv rm → capInv (relayRun rm evs) := by
  intro evs
  induction evs with
  | nil => intro rm h; exact h
  | cons e evs ih =>
    intro rm h
    cases e with
    | join token c now => exact ih _ (capInv_wsJoin rm token c now h)
    | leave token c => exact ih _ (capInv_wsDisconnect rm token c h)
    | tick now => exact ih _ (capInv_sweep rm now h)

/-- C2: from an empty table, any sequence of joins, disconnects and sweep
ticks leaves every session with at most 2 participants; a join finding fewer
than 2 participants is accepted, and a join finding 2 participants is
rejected as room-full (the connection is closed with a policy violation)
with the table unchanged. -/
theorem C2_session_capacity :
    (∀ evs token room, (token, room) ∈ (relayRun ⟨[]⟩ evs).rooms →
       room.clients.length ≤ 2) ∧
    (∀ rm token c now, roomCount rm token < 2 →
       (wsJoin rm token c now).1 = JoinResult.accepted) ∧
    (∀ rm token c now, 2 ≤ roomCount rm token →
       (wsJoin rm token c now).1 = JoinResult.rejectedRoomFull ∧
       (wsJoin rm token c now).2 = rm) := by
  refine ⟨?_, ?_, ?_⟩
  · intro evs token room hmem
    exact capInv_relayRun evs ⟨[]⟩ (fun t r h => by simp at h) token room hmem
  · intro rm token c now hcount
    cases hf : findRoom rm.rooms token with
    | some room =>
      have hcnt : ¬ 2 ≤ room.clients.length := by
        simp only [roomCount, hf] at hcount; omega
      have hrm1 : GetOrCreateRoom rm token now = rm := by
        unfold GetOrCreateRoom; rw [hf]
      simp [wsJoin, hrm1, hf, AddClient, hcnt]
    | none =>
      have hrm1 : GetOrCreateRoom rm token now =
          ⟨(token, ⟨token, [], now⟩) :: rm.rooms⟩ := by
        unfold GetOrCreateRoom; rw [hf]
      simp [wsJoin, hrm1, findRoom, AddClient]
  · intro rm token c now hcount
    have hex : ∃ room, findRoom rm.rooms token = some room ∧ 2 ≤ room.clients.length := by
      cases hf : findRoom rm.rooms token with
      | none => simp only [roomCount, hf] at hcount; omega
      | some room => simp only [roomCount, hf] at hcount; exact ⟨room, rfl, hcount⟩
    obtain ⟨room, hfr, hlen⟩ := hex
    have hrm1 : GetOrCreateRoom rm token now = rm := by
      unfold GetOrCreateRoom; rw [hfr]
    constructor
    · simp [wsJoin, hrm1, hfr, AddClient, hlen]
    · simp [wsJoin, hrm1, hfr, AddClient, hlen]

/-- C2 (witness): the rejection branch on a concrete full room. -/
theorem C2_session_capacity_witness :
    2 ≤ roomCount ⟨[("t", ⟨"t", [5, 6], 0⟩)]⟩ "t" ∧
    (wsJoin ⟨[("t", ⟨"t", [5, 6], 0⟩)]⟩ "t" 7 0).1 = JoinResult.rejectedRoomFull :=
  ⟨by decide,
   (C2_session_capacity.2.2 ⟨[("t", ⟨"t", [5, 6], 0⟩)]⟩ "t" 7 0 (by decide)).1⟩

/-- C3 (code evaluation): a single participant joins session `t` and then
disconnects.  The emptiness check of `handleWebSocket` runs before the
deferred `RemoveClient`, so it still sees one client and does not delete the
session; the deferred removal then empties it, and the empty session stays
in the table (until the expiry sweep) instead of being destroyed
immediately. -/
theorem C3_empty_room_persists :
    (wsDisconnect (wsJoin ⟨[]⟩ "t" 1 0).2 "t" 1).rooms =
      [("t", ⟨"t", [], 0⟩)] ∧
    findRoom (wsDisconnect (wsJoin ⟨[]⟩ "t" 1 0).2 "t" 1).rooms "t" =
      some ⟨"t", [], 0⟩ :=
  ⟨by decide, by decide⟩

/-- C7: consecutive ticks of the cleanup ticker are 60 seconds apart; at any
tick, every session strictly older than 600 seconds is removed from the
table and all its remaining connections are closed, regardless of how many
participants it still has, while every younger session survives unchanged;
in particular a session created at `T` is destroyed only at a tick later
than `T + 600` — at or after `T` plus 10 minutes. -/
theorem C7_expiry_sweep :
    (∀ t0 k, tickTime t0 (k + 1) = tickTime t0 k + 60) ∧
    (∀ rm now token room, (token, room) ∈ rm.rooms → room.createdAt + 600 < now →
       ((token, room) ∉ ((sweep rm now).1).rooms ∧
        ∀ c ∈ room.clients, c ∈ (sweep rm now).2)) ∧
    (∀ rm now token room, (token, room) ∈ rm.rooms → ¬ (room.createdAt + 600 < now) →
       (token, room) ∈ ((sweep rm now).1).rooms) ∧
    (∀ t0 k T, T + 600 < tickTime t0 k → T + 600 ≤ tickTime t0 k) := by
  refine ⟨fun t0 k => by simp only [tickTime]; omega,
    fun rm now token room hmem hexp => ⟨?_, ?_⟩,
    fun rm now token room hmem hexp => ?_,
    fun t0 k T h => by omega⟩
  · intro hin
    have hpred := (List.mem_filter.mp hin).2
    simp only [Bool.not_eq_eq_eq_not, Bool.not_true, decide_eq_false_iff_not] at hpred
    exact hpred hexp
  · intro c hc
    refine List.mem_flatten.mpr ⟨room.clients, ?_, hc⟩
    exact List.mem_map.mpr ⟨(token, room),
      List.mem_filter.mpr ⟨hmem, by simpa using hexp⟩, rfl⟩
  · exact List.mem_filter.mpr ⟨hmem, by simpa using hexp⟩

/-- C7 (witness): a sweep at 601 seconds removes a session created at 0 that
still has two participants. -/
theorem C7_expiry_sweep_witness :
    ("t", (⟨"t", [1, 2], 0⟩ : Room)) ∈ ([("t", ⟨"t", [1, 2], 0⟩)] : List (String × Room)) ∧
    (0 : Nat) + 600 < 601 ∧
    ("t", (⟨"t", [1, 2], 0⟩ : Room)) ∉ ((sweep ⟨[("t", ⟨"t", [1, 2], 0⟩)]⟩ 601).1).rooms :=
  ⟨by decide, by decide,
   (C7_expiry_sweep.2.1 ⟨[("t", ⟨"t", [1, 2], 0⟩)]⟩ 601 "t" ⟨"t", [1, 2], 0⟩
     (by decide) (by decide)).1⟩

end Pulse
